import Mathlib

/-!
Verification of the statistical beam-analysis routines of
`ocelot/cpbd/beam.py` and of the online tuning loop of `mint/mint.py`.

The Python source is shallowly embedded: numpy arrays become Lean lists,
in-place mutation becomes explicit state passing, and machine floats are
modelled by exact arithmetic (`ℚ` for the purely algebraic parts, `ℝ`
where square roots, trigonometric functions or exponentials occur).
Float `NaN` results (from `np.sqrt` of a negative number) are modelled by
`Option`, with `none` standing for `NaN`.

The file is organised as: all definitions first, then all theorems.
-/

namespace Beam

/-! ## Generic helpers (numpy primitives) -/

/-- `np.min` of a (nonempty) sample list; `0` on the empty list, which the
source never passes. -/
def npmin {α : Type} [LinearOrder α] [Zero α] : List α → α
  | [] => 0
  | a :: t => t.foldl min a

/-- `np.max` of a (nonempty) sample list; `0` on the empty list, which the
source never passes. -/
def npmax {α : Type} [LinearOrder α] [Zero α] : List α → α
  | [] => 0
  | a :: t => t.foldl max a

/-- `np.cumsum`: entry `n` is the sum of the first `n+1` elements. -/
def cumsum (l : List ℚ) : List ℚ :=
  (List.range l.length).map (fun n => (l.take (n + 1)).sum)

/-! ## `simple_filter` (beam.py lines 928–949): iterated boxcar smoothing -/

/-- One pass of the boxcar filter inside `simple_filter`: element `i` of the
output is the unweighted average of the input over the index window
`[i-p, i+p]` clamped to the array bounds (`i0 = max 0 (i-p)`,
`i1 = min (i+p) (n-1)`), exactly as in the inner double loop of the source. -/
def filter_pass (x : List ℚ) (p : ℕ) : List ℚ :=
  (List.range x.length).map (fun i =>
    let i0 := i - p
    let i1 := min (i + p) (x.length - 1)
    ((x.drop i0).take (i1 - i0 + 1)).sum / ((i1 - i0 + 1 : ℕ) : ℚ))

/-- `simple_filter(x, p, iter)` from the source: an explicit early return of
the input when `iter = 0`, otherwise `iter` successive boxcar passes. -/
def simple_filter (x : List ℚ) (p : ℕ) (iter : ℕ) : List ℚ :=
  if iter = 0 then x else (fun l => filter_pass l p)^[iter] x

/-! ## `slice_analysis` (beam.py lines 879–925): windowed moments -/

/-- `np.round(M/2)` (round half to even) for a natural `M`, as used in
`m = np.max([np.round(M/2), 1])` of `slice_analysis`. -/
def round_half_M (M : ℕ) : ℕ :=
  if M % 2 = 0 then M / 2
  else if (M / 2) % 2 = 0 then M / 2 else M / 2 + 1

/-- The six arrays returned by `slice_analysis`. -/
structure SliceMoments where
  mx : List ℚ
  mxs : List ℚ
  mxx : List ℚ
  mxxs : List ℚ
  mxsxs : List ℚ
  emittx : List ℝ

/-- The common shape of both loops of `slice_analysis`: for each `i < N`,
the cumulative-sum difference `c_cum[n2] - c_cum[n1]` over the clamped
window `n1 = max 0 (i-m)`, `n2 = min (N-1) (i+m)`, divided by
`dq = n2 - n1`.  (The difference of cumulative sums adds the entries at
indices `n1+1 .. n2`.) -/
def windowed_avg (c : List ℚ) (N m : ℕ) : List ℚ :=
  (List.range N).map (fun i =>
    let n1 := i - m
    let n2 := min (N - 1) (i + m)
    ((cumsum c).getD n2 0 - (cumsum c).getD n1 0) / ((n2 - n1 : ℕ) : ℚ))

/-- `slice_analysis(z, x, xs, M, to_sort)` for `to_sort = False` (the claim
supplies a z-sorted sample, and `z` is used by the source only for sorting):
windowed means of `x, xs`, then windowed second moments of the mean-subtracted
samples, then the windowed emittance, with window half-width
`m = max(round(M/2), 1)` and all running sums done with cumulative sums. -/
noncomputable def slice_analysis (x xs : List ℚ) (M : ℕ) : SliceMoments :=
  let N := x.length
  let m := max (round_half_M M) 1
  let mx := windowed_avg x N m
  let mxs := windowed_avg xs N m
  let x1 := List.zipWith (· - ·) x mx
  let xs1 := List.zipWith (· - ·) xs mxs
  let mxx := windowed_avg (List.zipWith (· * ·) x1 x1) N m
  let mxsxs := windowed_avg (List.zipWith (· * ·) xs1 xs1) N m
  let mxxs := windowed_avg (List.zipWith (· * ·) x1 xs1) N m
  let emittx := (List.range N).map (fun i =>
    Real.sqrt ((mxx.getD i 0 * mxsxs.getD i 0 - mxxs.getD i 0 * mxxs.getD i 0 : ℚ)))
  ⟨mx, mxs, mxx, mxxs, mxsxs, emittx⟩

/-! ## `ParticleArray` (beam.py lines 424–533) -/

/-- One column of the 6×N phase-space matrix `rparticles`:
`(x, x' = px/p0), (y, y' = py/p0), (tau, p = dE/(p0 c))`. -/
structure Coords (α : Type) where
  x : α
  px : α
  y : α
  py : α
  tau : α
  p : α
deriving DecidableEq

/-- `ParticleArray`: the 6×N coordinate matrix (held here column-wise: one
`Coords` per particle), the per-particle charge array `q_array`, and the
reference position `s` and energy `E` (`ParticleArray.__init__`). -/
structure ParticleArray (α : Type) where
  rparticles : List (Coords α)
  q_array : List α
  s : α
  E : α

/-- Row view `p_array.x()` (= `rparticles[0]`). -/
def ParticleArray.x {α : Type} (pa : ParticleArray α) : List α :=
  pa.rparticles.map Coords.x

/-- Row view `p_array.px()` (= `rparticles[1]`). -/
def ParticleArray.px {α : Type} (pa : ParticleArray α) : List α :=
  pa.rparticles.map Coords.px

/-- Row view `p_array.y()` (= `rparticles[2]`). -/
def ParticleArray.y {α : Type} (pa : ParticleArray α) : List α :=
  pa.rparticles.map Coords.y

/-- Row view `p_array.py()` (= `rparticles[3]`). -/
def ParticleArray.py {α : Type} (pa : ParticleArray α) : List α :=
  pa.rparticles.map Coords.py

/-- Row view `p_array.tau()` (= `rparticles[4]`). -/
def ParticleArray.tau {α : Type} (pa : ParticleArray α) : List α :=
  pa.rparticles.map Coords.tau

/-- Row view `p_array.p()` (= `rparticles[5]`). -/
def ParticleArray.p {α : Type} (pa : ParticleArray α) : List α :=
  pa.rparticles.map Coords.p

/-- `ParticleArray.rm_tails(xlim, ylim, px_lim, py_lim)`: deletes from
`rparticles` every column whose `|x| > xlim`, `|y| > ylim`, `x != x`
(float NaN test, never true in exact arithmetic), `y != y`, `|px| > px_lim`
or `|py| > py_lim`; the source touches only `rparticles` (the returned
index array of deleted columns is not modelled, the mutated array is). -/
def ParticleArray.rm_tails {α : Type} [LinearOrderedField α]
    (pa : ParticleArray α) (xlim ylim px_lim py_lim : α) : ParticleArray α :=
  { pa with
    rparticles := pa.rparticles.filter (fun c =>
      ¬(|c.x| > xlim ∨ |c.y| > ylim ∨ c.x ≠ c.x ∨ c.y ≠ c.y ∨
        |c.px| > px_lim ∨ |c.py| > py_lim)) }

/-- Electron rest mass in GeV.  Modelled from the spec: the constant
`m_e_GeV` comes from `ocelot.common.globals`, which is not part of the
sources; only its (nonnegative) physical value matters here and no theorem
depends on the exact number. -/
noncomputable def m_e_GeV : ℝ := 0.000510998928

/-- `recalculate_ref_particle(p_array)` (beam.py lines 524–532): re-centers
the array on particle 0, shifting the `tau` and `p` rows by their first
entries, moving the reference energy to `p[0]*pref + E` with
`pref = sqrt(E^2/m_e^2 - 1)*m_e`, and the reference position to
`s - tau[0]`; the new `E`, `s` are computed from the pre-shift values. -/
noncomputable def recalculate_ref_particle (pa : ParticleArray ℝ) :
    ParticleArray ℝ :=
  let pref := Real.sqrt (pa.E ^ 2 / m_e_GeV ^ 2 - 1) * m_e_GeV
  let p0 := pa.p.getD 0 0
  let tau0 := pa.tau.getD 0 0
  { rparticles := pa.rparticles.map (fun c =>
      { c with tau := c.tau - tau0, p := c.p - p0 }),
    q_array := pa.q_array,
    s := pa.s - tau0,
    E := p0 * pref + pa.E }

/-! ## `get_envelope` (beam.py lines 535–587) and `moments` (lines 635–668) -/

/-- `np.mean` (sum divided by length; `0/0 = 0` on the empty list, which
the source never passes). -/
def npmean {α : Type} [DivisionRing α] (l : List α) : α :=
  l.sum / l.length

/-- `np.sqrt` on a float: `NaN` (modelled as `none`) for a negative
argument, otherwise the real square root. -/
noncomputable def npsqrt (r : ℚ) : Option ℝ :=
  if r < 0 then none else some (Real.sqrt r)

/-- The fields of the `Twiss` container that `get_envelope` fills in. -/
structure GTwiss where
  x : ℝ
  y : ℝ
  px : ℝ
  py : ℝ
  xx : ℝ
  xpx : ℝ
  pxpx : ℝ
  yy : ℝ
  ypy : ℝ
  pypy : ℝ
  p : ℝ
  E : ℝ
  emit_x : ℝ
  emit_y : ℝ
  beta_x : ℝ
  beta_y : ℝ
  alpha_x : ℝ
  alpha_y : ℝ

/-- `get_envelope(p_array, tws_i)` (both the `numexpr` and plain branches
compute the same thing): dispersion subtraction, the second-order
small-angle correction — in which the `py` line reads the *already
reassigned* `px` — then means, centered second moments, emittances and
Twiss parameters.  `np.sqrt` of a negative emittance radicand (float `NaN`)
is modelled by `Real.sqrt` (junk value 0); no claim below depends on the
emittance fields at negative radicands. -/
noncomputable def get_envelope (pa : ParticleArray ℝ) (Dx Dy Dxp Dyp : ℝ) :
    GTwiss :=
  let p := pa.p
  let x := List.zipWith (· - ·) pa.x (p.map (Dx * ·))
  let px0 := List.zipWith (· - ·) pa.px (p.map (Dxp * ·))
  let y := List.zipWith (· - ·) pa.y (p.map (Dy * ·))
  let py0 := List.zipWith (· - ·) pa.py (p.map (Dyp * ·))
  let px := List.zipWith (fun a b => a * (1 - 0.5 * a * a - 0.5 * b * b)) px0 py0
  let py := List.zipWith (fun b a => b * (1 - 0.5 * a * a - 0.5 * b * b)) py0 px
  let mx := npmean x
  let my := npmean y
  let mpx := npmean px
  let mpy := npmean py
  let xx := npmean (x.map (fun a => (a - mx) * (a - mx)))
  let xpx := npmean (List.zipWith (fun a b => (a - mx) * (b - mpx)) x px)
  let pxpx := npmean (px.map (fun b => (b - mpx) * (b - mpx)))
  let yy := npmean (y.map (fun a => (a - my) * (a - my)))
  let ypy := npmean (List.zipWith (fun a b => (a - my) * (b - mpy)) y py)
  let pypy := npmean (py.map (fun b => (b - mpy) * (b - mpy)))
  let emit_x := Real.sqrt (xx * pxpx - xpx ^ 2)
  let emit_y := Real.sqrt (yy * pypy - ypy ^ 2)
  { x := mx, y := my, px := mpx, py := mpy,
    xx := xx, xpx := xpx, pxpx := pxpx,
    yy := yy, ypy := ypy, pypy := pypy,
    p := npmean pa.p, E := pa.E,
    emit_x := emit_x, emit_y := emit_y,
    beta_x := xx / emit_x, beta_y := yy / emit_y,
    alpha_x := -xpx / emit_x, alpha_y := -ypy / emit_y }

/-- The six values returned by `moments`. -/
structure MomentsOut where
  mx : ℚ
  my : ℚ
  mxx : ℚ
  mxy : ℚ
  myy : ℚ
  emitt : Option ℝ

/-- `moments(x, y)` at the default `cut = 0` (the `cut > 0` branch is not
taken): means, population (1/n, with `n = len(x)`) centered second moments,
and `emitt = np.sqrt(mxx*myy - mxy*mxy)` with float `NaN` modelled as
`none`. -/
noncomputable def moments (x y : List ℚ) : MomentsOut :=
  let n := x.length
  let mx := npmean x
  let my := npmean y
  let x1 := x.map (· - mx)
  let y1 := y.map (· - my)
  let mxx := (x1.map (fun a => a * a)).sum / n
  let myy := (y1.map (fun a => a * a)).sum / n
  let mxy := (List.zipWith (· * ·) x1 y1).sum / n
  ⟨mx, my, mxx, mxy, myy, npsqrt (mxx * myy - mxy * mxy)⟩

/-- Population variance in the product-moment form
`E[a²] - (E[a])²` that the claims state. -/
def pop_var (x : List ℚ) : ℚ :=
  (x.map (fun a => a * a)).sum / x.length - npmean x * npmean x

/-- Population covariance in the product-moment form
`E[ab] - E[a]E[b]` that the claims state. -/
def pop_cov (x y : List ℚ) : ℚ :=
  (List.zipWith (· * ·) x y).sum / x.length - npmean x * npmean y

/-- Mean of a sample with its first point excluded: the quantity
`slice_analysis` actually reproduces at every index in the full-window
regime (the cumulative-sum difference drops index 0). -/
def tail_mean (l : List ℚ) : ℚ := l.tail.sum / ((l.length - 1 : ℕ) : ℚ)

/-- Population variance of a sample with its first point excluded. -/
def tail_var (l : List ℚ) : ℚ :=
  (l.tail.map (fun a => (a - tail_mean l) * (a - tail_mean l))).sum /
    ((l.length - 1 : ℕ) : ℚ)

/-- Population covariance of two samples with their first points excluded. -/
def tail_cov (x y : List ℚ) : ℚ :=
  (List.zipWith (fun a b => (a - tail_mean x) * (b - tail_mean y))
    x.tail y.tail).sum / ((x.length - 1 : ℕ) : ℚ)

/-! ## `m_from_twiss` and `beam_matching` (beam.py lines 670–717) -/

/-- `np.std`: the population standard deviation. -/
noncomputable def npstd (l : List ℝ) : ℝ :=
  Real.sqrt (npmean (l.map (fun a => (a - npmean l) * (a - npmean l))))

/-- The values returned by the real-valued reading of `moments`. -/
structure MomentsROut where
  mx : ℝ
  my : ℝ
  mxx : ℝ
  mxy : ℝ
  myy : ℝ
  emitt : ℝ

/-- `moments(x, y)` (default `cut = 0`) again, this time over `ℝ` with
`Real.sqrt`, as consumed by `beam_matching`; the claims proved with it do
not depend on the emittance value at a negative radicand, so float `NaN`
need not be distinguished here. -/
noncomputable def momentsR (x y : List ℝ) : MomentsROut :=
  let n := x.length
  let mx := npmean x
  let my := npmean y
  let x1 := x.map (· - mx)
  let y1 := y.map (· - my)
  let mxx := (x1.map (fun a => a * a)).sum / n
  let myy := (y1.map (fun a => a * a)).sum / n
  let mxy := (List.zipWith (· * ·) x1 y1).sum / n
  ⟨mx, my, mxx, mxy, myy, Real.sqrt (mxx * myy - mxy * mxy)⟩

/-- A 2×2 transport matrix. -/
structure Mat2 where
  m00 : ℝ
  m01 : ℝ
  m10 : ℝ
  m11 : ℝ

/-- `m_from_twiss(Tw1, Tw2)` with `Tw = [alpha, beta, psi]`: the linear
transport matrix between two Twiss states. -/
noncomputable def m_from_twiss (Tw1 Tw2 : ℝ × ℝ × ℝ) : Mat2 :=
  let a1 := Tw1.1
  let b1 := Tw1.2.1
  let psi1 := Tw1.2.2
  let a2 := Tw2.1
  let b2 := Tw2.2.1
  let psi2 := Tw2.2.2
  let psi := psi2 - psi1
  let cosp := Real.cos psi
  let sinp := Real.sin psi
  ⟨Real.sqrt (b2 / b1) * (cosp + a1 * sinp),
   Real.sqrt (b2 * b1) * sinp,
   ((a1 - a2) * cosp - (1 + a1 * a2) * sinp) / Real.sqrt (b2 * b1),
   Real.sqrt (b1 / b2) * (cosp - a2 * sinp)⟩

/-- The in-window particles of `beam_matching`: those with
`z0 + sig0*bounds[0] <= tau <= z0 + sig0*bounds[1]`, where `z0, sig0` are
the mean and standard deviation of the `tau` row. -/
noncomputable def window_sel (particles : List (Coords ℝ)) (bounds : ℝ × ℝ) :
    List (Coords ℝ) :=
  let taus := particles.map Coords.tau
  let z0 := npmean taus
  let sig0 := npstd taus
  particles.filter (fun c =>
    z0 + sig0 * bounds.1 ≤ c.tau ∧ c.tau ≤ z0 + sig0 * bounds.2)

/-- The x-plane matrix of `beam_matching`: `moments` of the *in-window*
`(x, px)` pairs, `beta = mxx/emit`, `alpha = -mxxs/emit`, phase advance 0. -/
noncomputable def match_matrix_x (particles : List (Coords ℝ))
    (bounds : ℝ × ℝ) (x_opt : ℝ × ℝ × ℝ) : Mat2 :=
  let sel := window_sel particles bounds
  let mom := momentsR (sel.map Coords.x) (sel.map Coords.px)
  m_from_twiss (-mom.mxy / mom.emitt, mom.mxx / mom.emitt, 0) x_opt

/-- The y-plane matrix of `beam_matching`, from the in-window `(y, py)`
pairs. -/
noncomputable def match_matrix_y (particles : List (Coords ℝ))
    (bounds : ℝ × ℝ) (y_opt : ℝ × ℝ × ℝ) : Mat2 :=
  let sel := window_sel particles bounds
  let mom := momentsR (sel.map Coords.y) (sel.map Coords.py)
  m_from_twiss (-mom.mxy / mom.emitt, mom.mxx / mom.emitt, 0) y_opt

/-- `beam_matching(particles, bounds, x_opt, y_opt)`: measures the windowed
moments, then overwrites rows 0–3 of *every* column from the copies `pd`
of the original rows (`particles[0] = M[0,0]*pd[:,0] + M[0,1]*pd[:,1]`,
etc.); rows 4 and 5 are untouched. -/
noncomputable def beam_matching (particles : List (Coords ℝ))
    (bounds : ℝ × ℝ) (x_opt y_opt : ℝ × ℝ × ℝ) : List (Coords ℝ) :=
  let Mx := match_matrix_x particles bounds x_opt
  let My := match_matrix_y particles bounds y_opt
  particles.map (fun c =>
    { c with
      x := Mx.m00 * c.x + Mx.m01 * c.px,
      px := Mx.m10 * c.x + Mx.m11 * c.px,
      y := My.m00 * c.y + My.m01 * c.py,
      py := My.m10 * c.y + My.m11 * c.py })

/-! ## `s_to_cur` (beam.py lines 823–876): binned current profile -/

/-- Lower end of the auto-ranged grid: `a = np.min(A) - Nsigma*sigma`. -/
noncomputable def grid_a (A : List ℝ) (sigma : ℝ) : ℝ := npmin A - 3 * sigma

/-- Upper end of the auto-ranged grid: `b = np.max(A) + Nsigma*sigma`. -/
noncomputable def grid_b (A : List ℝ) (sigma : ℝ) : ℝ := npmax A + 3 * sigma

/-- The bin count `N = int(np.ceil((b-a)/s))` at the provisional bin size
`s = 0.25*sigma`. -/
noncomputable def grid_N (A : List ℝ) (sigma : ℝ) : ℕ :=
  ⌈(grid_b A sigma - grid_a A sigma) / (0.25 * sigma)⌉₊

/-- The final bin width `s = (b-a)/N`. -/
noncomputable def bin_w (A : List ℝ) (sigma : ℝ) : ℝ :=
  (grid_b A sigma - grid_a A sigma) / grid_N A sigma

/-- The first-order deposit loop of `s_to_cur`: for each particle pair
`(i, xi)` (`i = I[k]` the floor bin, `xi = xiA[k]` the left weight), clamp
`i` to the last grid point `N2-1` and add `xi` at `i` and `1 - xi` at
`i+1`.  The histogram `C` (a numpy array of length `N+1`) is modelled as a
function on ℤ; the indices actually hit never leave `[0, N]` (proved in
`s_to_cur_integral`). -/
def deposit (N2 : ℕ) : List (ℤ × ℝ) → (ℤ → ℝ) → (ℤ → ℝ)
  | [], C => C
  | pr :: rest, C =>
    let i := if pr.1 > (N2 : ℤ) - 1 then (N2 : ℤ) - 1 else pr.1
    let C1 := Function.update C i (C i + pr.2)
    let C2 := Function.update C1 (i + 1) (C1 (i + 1) + (1 - pr.2))
    deposit N2 rest C2

/-- The scaled particle coordinates `cA = (A - a)/s`. -/
noncomputable def s_to_cur_cA (A : List ℝ) (sigma : ℝ) : List ℝ :=
  A.map (fun t => (t - grid_a A sigma) / bin_w A sigma)

/-- The per-particle pairs `(I[k], xiA[k]) = (floor cA[k], 1 + I[k] - cA[k])`
fed to the deposit loop. -/
noncomputable def s_to_cur_ps (A : List ℝ) (sigma : ℝ) : List (ℤ × ℝ) :=
  (s_to_cur_cA A sigma).map (fun c => (⌊c⌋, 1 + (⌊c⌋ : ℝ) - c))

/-- The deposited first-order histogram `C`. -/
noncomputable def s_to_cur_C (A : List ℝ) (sigma : ℝ) : ℤ → ℝ :=
  deposit (grid_N A sigma + 1) (s_to_cur_ps A sigma) (fun _ => 0)

/-- The kernel half-width `K = np.floor(Nsigma*sigma/s + 0.5)`. -/
noncomputable def s_to_cur_K (A : List ℝ) (sigma : ℝ) : ℕ :=
  (⌊3 * sigma / bin_w A sigma + 1 / 2⌋).toNat

/-- The normalized truncated Gaussian kernel
`G = exp(-0.5*(np.arange(-K, K+1)*s/sigma)**2)`, then `G = G/np.sum(G)`. -/
noncomputable def s_to_cur_G (A : List ℝ) (sigma : ℝ) : List ℝ :=
  let K := s_to_cur_K A sigma
  let G0 := (List.range (2 * K + 1)).map (fun t : ℕ =>
    Real.exp (-0.5 * (((t : ℝ) - (K : ℝ)) * bin_w A sigma / sigma) ^ 2))
  G0.map (· / G0.sum)

/-- The kernel as a 0-padded function of the convolution offset. -/
noncomputable def s_to_cur_Gf (A : List ℝ) (sigma : ℝ) : ℤ → ℝ :=
  fun t => if 0 ≤ t ∧ t < 2 * (s_to_cur_K A sigma : ℤ) + 1
    then (s_to_cur_G A sigma).getD t.toNat 0 else 0

/-- `B[:, 1] = convmode(C, G, 1)` before rescaling: the centered slice of
the full convolution `np.convolve(C, G)`, i.e.
`B1[j] = sum_l C[l]*G[j + K - l]` over the valid indices of `C`. -/
noncomputable def s_to_cur_B1 (A : List ℝ) (sigma : ℝ) : List ℝ :=
  let N2 := grid_N A sigma + 1
  (List.range N2).map (fun j : ℕ =>
    ∑ l ∈ Finset.range N2,
      s_to_cur_C A sigma (l : ℤ) *
        s_to_cur_Gf A sigma ((j : ℤ) + (s_to_cur_K A sigma : ℤ) - (l : ℤ)))

/-- The two columns of the matrix `B` returned by `s_to_cur`. -/
structure CurProfile where
  pos : List ℝ
  cur : List ℝ

/-- `s_to_cur(A, sigma, q0, v)`: the grid positions `B[:, 0]` and the
convolved histogram rescaled by `koef = q0*v/(s*np.sum(B[:, 1]))`. -/
noncomputable def s_to_cur (A : List ℝ) (sigma q0 v : ℝ) : CurProfile :=
  let s := bin_w A sigma
  let B1 := s_to_cur_B1 A sigma
  let koef := q0 * v / (s * B1.sum)
  ⟨(List.range (grid_N A sigma + 1)).map (fun j : ℕ => (j : ℝ) * s + grid_a A sigma),
   B1.map (fun r => koef * r)⟩

/-! ## `Optimizer.max_sase` (mint.py lines 61–199) -/

/-- The actuator-write loop
`for i in xrange(len(vals)): mi.set_value(correctors[i], vals[i])`,
modelled positionally on the machine's stored values for the correctors. -/
def write_loop (store vals : List ℚ) : List ℚ :=
  (List.range vals.length).foldl (fun st i => st.set i (vals.getD i 0)) store

/-- The final phase of one `max_sase` invocation (mint.py lines 189–195):
after the minimizer returns, read `sase_new` and revert every corrector to
its recorded baseline `x_init` iff `sase_new <= sase_ref`; `store` is the
machine's actuator state as the minimizer left it. -/
def max_sase_final (sase_ref sase_new : ℚ) (x_init store : List ℚ) :
    List ℚ :=
  if sase_new ≤ sase_ref then write_loop store x_init else store

/-- The limit-check loop at the top of `error_func`: walks the proposed
vector in order and returns at the first component outside its corrector's
configured limits (`x[i] < limits[0] or x[i] > limits[1]`).  The
`(_ :: _, [])` arm is unreachable when, as in the source, there is one
limits pair per component. -/
def limits_exceeded (x : List ℚ) (lims : List (ℚ × ℚ)) : Bool :=
  match x, lims with
  | [], _ => false
  | _ :: _, [] => false
  | xi :: xs, (lo, hi) :: ls =>
    if xi < lo ∨ xi > hi then true else limits_exceeded xs ls

/-- The result of one `error_func` call: the machine's actuator values
afterwards, and the returned penalty. -/
structure ErrResult where
  store : List ℚ
  pen : ℚ
deriving DecidableEq

/-- One evaluation of `error_func(x)` (mint.py lines 74–117): if any
component is outside its limits, return the fixed penalty 100.0 without
writing any actuator; otherwise write every actuator, wait, read the
alarms and the objective, and return 100.0 if `max(alarms) > 1.0`,
`alarm*50.0` if `alarm > 0.7`, else `alarm - sase`.  `alarms` and `sase`
are the machine readbacks after the settle sleep. -/
def error_func (x : List ℚ) (lims : List (ℚ × ℚ)) (store : List ℚ)
    (alarms : List ℚ) (sase : ℚ) : ErrResult :=
  if limits_exceeded x lims then ⟨store, 100⟩
  else
    let store1 := write_loop store x
    let alarm := npmax alarms
    if alarm > 1 then ⟨store1, 100⟩
    else if alarm > 0.7 then ⟨store1, alarm * 50⟩
    else ⟨store1, alarm - sase⟩

end Beam

namespace Beam

/-! ## Theorems: generic helpers -/

theorem foldl_min_le {α : Type} [LinearOrder α] (t : List α) (a : α) :
    ∀ b ∈ a :: t, t.foldl min a ≤ b := by
  induction t generalizing a with
  | nil => intro b hb; simp at hb; simp [hb]
  | cons c t ih =>
    intro b hb
    have h1 := ih (min a c)
    simp only [List.mem_cons] at hb
    rcases hb with rfl | rfl | hb
    · exact le_trans (h1 (min b c) (List.mem_cons_self _ _)) (min_le_left _ _)
    · exact le_trans (h1 (min a b) (List.mem_cons_self _ _)) (min_le_right _ _)
    · exact h1 b (List.mem_cons_of_mem _ hb)

theorem le_foldl_max {α : Type} [LinearOrder α] (t : List α) (a : α) :
    ∀ b ∈ a :: t, b ≤ t.foldl max a := by
  induction t generalizing a with
  | nil => intro b hb; simp at hb; simp [hb]
  | cons c t ih =>
    intro b hb
    have h1 := ih (max a c)
    simp only [List.mem_cons] at hb
    rcases hb with rfl | rfl | hb
    · exact le_trans (le_max_left b c) (h1 (max b c) (List.mem_cons_self _ _))
    · exact le_trans (le_max_right a b) (h1 (max a b) (List.mem_cons_self _ _))
    · exact h1 b (List.mem_cons_of_mem _ hb)

theorem npmin_le {α : Type} [LinearOrder α] [Zero α] (l : List α) :
    ∀ b ∈ l, npmin l ≤ b := by
  cases l with
  | nil => intro b hb; simp at hb
  | cons a t => exact foldl_min_le t a

theorem le_npmax {α : Type} [LinearOrder α] [Zero α] (l : List α) :
    ∀ b ∈ l, b ≤ npmax l := by
  cases l with
  | nil => intro b hb; simp at hb
  | cons a t => exact le_foldl_max t a

theorem map_range_getD {α : Type} (f : ℕ → α) (N n : ℕ) (h : n < N) (d : α) :
    ((List.range N).map f).getD n d = f n := by
  rw [List.getD_eq_getElem?_getD, List.getElem?_map, List.getElem?_range h]
  rfl

theorem zipWith_replicate_sub (x : List ℚ) (T : ℚ) (N : ℕ) (h : x.length = N) :
    List.zipWith (· - ·) x (List.replicate N T) = x.map (· - T) := by
  subst h
  induction x with
  | nil => rfl
  | cons a t ih => simp [List.replicate_succ, ih]

theorem zipWith_tail {α : Type} (f : α → α → α) (x y : List α) :
    (List.zipWith f x y).tail = List.zipWith f x.tail y.tail := by
  cases x <;> cases y <;> simp

theorem zipWith_mul_self (x : List ℚ) :
    List.zipWith (· * ·) x x = x.map (fun a => a * a) := by
  induction x with
  | nil => rfl
  | cons a t ih => simp [ih]

theorem zipWith_map_sub_mul (x y : List ℚ) (T S : ℚ) :
    List.zipWith (· * ·) (x.map (· - T)) (y.map (· - S)) =
      List.zipWith (fun a b => (a - T) * (b - S)) x y := by
  rw [List.zipWith_map]

theorem cumsum_getD (l : List ℚ) (n : ℕ) (h : n < l.length) :
    (cumsum l).getD n 0 = (l.take (n + 1)).sum := by
  unfold cumsum
  exact map_range_getD _ _ _ h 0

theorem sum_sub_take_one (l : List ℚ) (h : l ≠ []) :
    l.sum - (l.take 1).sum = l.tail.sum := by
  cases l with
  | nil => simp at h
  | cons a t => simp [List.take, add_comm]

/-! ## Theorems: `ParticleArray` -/

theorem getD_map {α β : Type} (f : α → β) (l : List α) (k : ℕ)
    (h : k < l.length) (d : β) (d' : α) :
    (l.map f).getD k d = f (l.getD k d') := by
  rw [List.getD_eq_getElem?_getD, List.getD_eq_getElem?_getD,
    List.getElem?_map, List.getElem?_eq_getElem h]
  rfl

/-- C3 (failing input): `rm_tails` deletes columns of `rparticles` but
never touches `q_array`.  On an array with one particle at `x = 2` that
satisfies the invariant `len(q_array) = column count`, trimming with
`xlim = 1` removes the column yet leaves `q_array` at length 1, so the
invariant is broken. -/
theorem rm_tails_breaks_invariant :
    (⟨[⟨2, 0, 0, 0, 0, 0⟩], [1], 0, 0⟩ : ParticleArray ℚ).rparticles.length =
      (⟨[⟨2, 0, 0, 0, 0, 0⟩], [1], 0, 0⟩ : ParticleArray ℚ).q_array.length ∧
    ((⟨[⟨2, 0, 0, 0, 0, 0⟩], [1], 0, 0⟩ : ParticleArray ℚ).rm_tails
      1 1 1 1).rparticles.length = 0 ∧
    ((⟨[⟨2, 0, 0, 0, 0, 0⟩], [1], 0, 0⟩ : ParticleArray ℚ).rm_tails
      1 1 1 1).q_array.length = 1 := by
  refine ⟨rfl, ?_, rfl⟩
  have habs : |(2 : ℚ)| > 1 := by rw [abs_of_pos] <;> norm_num
  simp [ParticleArray.rm_tails, List.filter_cons, habs]

/-- C10: `recalculate_ref_particle` re-centers the (nonempty) array on
particle 0: afterwards `tau[0] = 0` and `p[0] = 0`, every particle's `tau`
and `p` are shifted down by the old first-particle values, the reference
energy becomes `E + p_old[0]*sqrt(E²/m_e² - 1)*m_e`, the reference position
becomes `s - tau_old[0]`, and the `x, px, y, py` components and `q_array`
are unchanged. -/
theorem recalculate_ref_particle_spec (pa : ParticleArray ℝ)
    (h : pa.rparticles ≠ []) :
    (recalculate_ref_particle pa).tau.getD 0 0 = 0 ∧
    (recalculate_ref_particle pa).p.getD 0 0 = 0 ∧
    (recalculate_ref_particle pa).rparticles.length = pa.rparticles.length ∧
    (∀ k, k < pa.rparticles.length →
      ((recalculate_ref_particle pa).rparticles.getD k ⟨0, 0, 0, 0, 0, 0⟩).tau =
        (pa.rparticles.getD k ⟨0, 0, 0, 0, 0, 0⟩).tau - pa.tau.getD 0 0 ∧
      ((recalculate_ref_particle pa).rparticles.getD k ⟨0, 0, 0, 0, 0, 0⟩).p =
        (pa.rparticles.getD k ⟨0, 0, 0, 0, 0, 0⟩).p - pa.p.getD 0 0 ∧
      ((recalculate_ref_particle pa).rparticles.getD k ⟨0, 0, 0, 0, 0, 0⟩).x =
        (pa.rparticles.getD k ⟨0, 0, 0, 0, 0, 0⟩).x ∧
      ((recalculate_ref_particle pa).rparticles.getD k ⟨0, 0, 0, 0, 0, 0⟩).px =
        (pa.rparticles.getD k ⟨0, 0, 0, 0, 0, 0⟩).px ∧
      ((recalculate_ref_particle pa).rparticles.getD k ⟨0, 0, 0, 0, 0, 0⟩).y =
        (pa.rparticles.getD k ⟨0, 0, 0, 0, 0, 0⟩).y ∧
      ((recalculate_ref_particle pa).rparticles.getD k ⟨0, 0, 0, 0, 0, 0⟩).py =
        (pa.rparticles.getD k ⟨0, 0, 0, 0, 0, 0⟩).py) ∧
    (recalculate_ref_particle pa).E =
      pa.E + pa.p.getD 0 0 * (Real.sqrt (pa.E ^ 2 / m_e_GeV ^ 2 - 1) * m_e_GeV) ∧
    (recalculate_ref_particle pa).s = pa.s - pa.tau.getD 0 0 ∧
    (recalculate_ref_particle pa).q_array = pa.q_array := by
  have hl : 0 < pa.rparticles.length := List.length_pos.2 h
  have hout : (recalculate_ref_particle pa).rparticles =
      pa.rparticles.map (fun c =>
        { c with tau := c.tau - pa.tau.getD 0 0, p := c.p - pa.p.getD 0 0 }) := rfl
  have hgen : ∀ k, k < pa.rparticles.length →
      (recalculate_ref_particle pa).rparticles.getD k ⟨0, 0, 0, 0, 0, 0⟩ =
        (fun c => { c with tau := c.tau - pa.tau.getD 0 0,
                           p := c.p - pa.p.getD 0 0 })
          (pa.rparticles.getD k ⟨0, 0, 0, 0, 0, 0⟩) := by
    intro k hk
    rw [hout]
    exact getD_map _ _ _ hk _ _
  have htau0 : pa.tau.getD 0 0 = (pa.rparticles.getD 0 ⟨0, 0, 0, 0, 0, 0⟩).tau := by
    rw [ParticleArray.tau]; exact getD_map _ _ _ hl _ _
  have hp0 : pa.p.getD 0 0 = (pa.rparticles.getD 0 ⟨0, 0, 0, 0, 0, 0⟩).p := by
    rw [ParticleArray.p]; exact getD_map _ _ _ hl _ _
  refine ⟨?_, ?_, ?_, ?_, ?_, ?_, ?_⟩
  · rw [ParticleArray.tau, getD_map Coords.tau _ 0 (by rw [hout]; simpa using hl) 0
      ⟨0, 0, 0, 0, 0, 0⟩, hgen 0 hl]
    simp only [htau0, sub_self]
  · rw [ParticleArray.p, getD_map Coords.p _ 0 (by rw [hout]; simpa using hl) 0
      ⟨0, 0, 0, 0, 0, 0⟩, hgen 0 hl]
    simp only [hp0, sub_self]
  · rw [hout, List.length_map]
  · intro k hk
    rw [hgen k hk]
    exact ⟨rfl, rfl, rfl, rfl, rfl, rfl⟩
  · show pa.p.getD 0 0 * (Real.sqrt (pa.E ^ 2 / m_e_GeV ^ 2 - 1) * m_e_GeV) + pa.E = _
    ring
  · rfl
  · rfl

theorem recalculate_ref_particle_spec_witness :
    (⟨[⟨1, 2, 3, 4, 5, 6⟩], [10], 7, 8⟩ : ParticleArray ℝ).rparticles ≠ [] ∧
    ((recalculate_ref_particle
        ⟨[⟨1, 2, 3, 4, 5, 6⟩], [10], 7, 8⟩).tau.getD 0 0 = 0 ∧
      (recalculate_ref_particle
        ⟨[⟨1, 2, 3, 4, 5, 6⟩], [10], 7, 8⟩).p.getD 0 0 = 0 ∧
      (recalculate_ref_particle
        ⟨[⟨1, 2, 3, 4, 5, 6⟩], [10], 7, 8⟩).rparticles.length =
        (⟨[⟨1, 2, 3, 4, 5, 6⟩], [10], 7, 8⟩ : ParticleArray ℝ).rparticles.length ∧
      (∀ k, k < (⟨[⟨1, 2, 3, 4, 5, 6⟩], [10], 7, 8⟩ :
          ParticleArray ℝ).rparticles.length →
        ((recalculate_ref_particle
            ⟨[⟨1, 2, 3, 4, 5, 6⟩], [10], 7, 8⟩).rparticles.getD k
              ⟨0, 0, 0, 0, 0, 0⟩).tau =
          ((⟨[⟨1, 2, 3, 4, 5, 6⟩], [10], 7, 8⟩ :
            ParticleArray ℝ).rparticles.getD k ⟨0, 0, 0, 0, 0, 0⟩).tau -
            (⟨[⟨1, 2, 3, 4, 5, 6⟩], [10], 7, 8⟩ :
              ParticleArray ℝ).tau.getD 0 0 ∧
        ((recalculate_ref_particle
            ⟨[⟨1, 2, 3, 4, 5, 6⟩], [10], 7, 8⟩).rparticles.getD k
              ⟨0, 0, 0, 0, 0, 0⟩).p =
          ((⟨[⟨1, 2, 3, 4, 5, 6⟩], [10], 7, 8⟩ :
            ParticleArray ℝ).rparticles.getD k ⟨0, 0, 0, 0, 0, 0⟩).p -
            (⟨[⟨1, 2, 3, 4, 5, 6⟩], [10], 7, 8⟩ :
              ParticleArray ℝ).p.getD 0 0 ∧
        ((recalculate_ref_particle
            ⟨[⟨1, 2, 3, 4, 5, 6⟩], [10], 7, 8⟩).rparticles.getD k
              ⟨0, 0, 0, 0, 0, 0⟩).x =
          ((⟨[⟨1, 2, 3, 4, 5, 6⟩], [10], 7, 8⟩ :
            ParticleArray ℝ).rparticles.getD k ⟨0, 0, 0, 0, 0, 0⟩).x ∧
        ((recalculate_ref_particle
            ⟨[⟨1, 2, 3, 4, 5, 6⟩], [10], 7, 8⟩).rparticles.getD k
              ⟨0, 0, 0, 0, 0, 0⟩).px =
          ((⟨[⟨1, 2, 3, 4, 5, 6⟩], [10], 7, 8⟩ :
            ParticleArray ℝ).rparticles.getD k ⟨0, 0, 0, 0, 0, 0⟩).px ∧
        ((recalculate_ref_particle
            ⟨[⟨1, 2, 3, 4, 5, 6⟩], [10], 7, 8⟩).rparticles.getD k
              ⟨0, 0, 0, 0, 0, 0⟩).y =
          ((⟨[⟨1, 2, 3, 4, 5, 6⟩], [10], 7, 8⟩ :
            ParticleArray ℝ).rparticles.getD k ⟨0, 0, 0, 0, 0, 0⟩).y ∧
        ((recalculate_ref_particle
            ⟨[⟨1, 2, 3, 4, 5, 6⟩], [10], 7, 8⟩).rparticles.getD k
              ⟨0, 0, 0, 0, 0, 0⟩).py =
          ((⟨[⟨1, 2, 3, 4, 5, 6⟩], [10], 7, 8⟩ :
            ParticleArray ℝ).rparticles.getD k ⟨0, 0, 0, 0, 0, 0⟩).py) ∧
      (recalculate_ref_particle ⟨[⟨1, 2, 3, 4, 5, 6⟩], [10], 7, 8⟩).E =
        (⟨[⟨1, 2, 3, 4, 5, 6⟩], [10], 7, 8⟩ : ParticleArray ℝ).E +
          (⟨[⟨1, 2, 3, 4, 5, 6⟩], [10], 7, 8⟩ :
            ParticleArray ℝ).p.getD 0 0 *
            (Real.sqrt ((⟨[⟨1, 2, 3, 4, 5, 6⟩], [10], 7, 8⟩ :
              ParticleArray ℝ).E ^ 2 / m_e_GeV ^ 2 - 1) * m_e_GeV) ∧
      (recalculate_ref_particle ⟨[⟨1, 2, 3, 4, 5, 6⟩], [10], 7, 8⟩).s =
        (⟨[⟨1, 2, 3, 4, 5, 6⟩], [10], 7, 8⟩ : ParticleArray ℝ).s -
          (⟨[⟨1, 2, 3, 4, 5, 6⟩], [10], 7, 8⟩ :
            ParticleArray ℝ).tau.getD 0 0 ∧
      (recalculate_ref_particle ⟨[⟨1, 2, 3, 4, 5, 6⟩], [10], 7, 8⟩).q_array =
        (⟨[⟨1, 2, 3, 4, 5, 6⟩], [10], 7, 8⟩ : ParticleArray ℝ).q_array) :=
  ⟨List.cons_ne_nil _ _,
    recalculate_ref_particle_spec ⟨[⟨1, 2, 3, 4, 5, 6⟩], [10], 7, 8⟩
      (List.cons_ne_nil _ _)⟩

/-! ## Theorems: `get_envelope` and `moments` -/

theorem zipWith_second_fusion (g f : ℝ → ℝ → ℝ) :
    ∀ (u v : List ℝ), List.zipWith g v (List.zipWith f u v) =
      List.zipWith (fun a b => g b (f a b)) u v
  | [], [] => rfl
  | [], _ :: _ => rfl
  | _ :: _, [] => rfl
  | a :: u, b :: v => by
    simp only [List.zipWith_cons_cons]
    rw [zipWith_second_fusion g f u v]

/-- C2 (amended): in `get_envelope` the second-order correction for `px`
uses the uncorrected dispersion-subtracted momenta of both planes, but the
correction for `py` uses the *already corrected* `px` (the source reassigns
`px` before computing `py`): with `px0, py0` the dispersion-subtracted
values, `px_new = px0*(1 - ½px0² - ½py0²)` while
`py_new = py0*(1 - ½px_new² - ½py0²)`. -/
theorem get_envelope_correction (pa : ParticleArray ℝ) (Dx Dy Dxp Dyp : ℝ) :
    (get_envelope pa Dx Dy Dxp Dyp).px =
      npmean (List.zipWith
        (fun a b => a * (1 - 0.5 * a * a - 0.5 * b * b))
        (List.zipWith (· - ·) pa.px (pa.p.map (Dxp * ·)))
        (List.zipWith (· - ·) pa.py (pa.p.map (Dyp * ·)))) ∧
    (get_envelope pa Dx Dy Dxp Dyp).py =
      npmean (List.zipWith
        (fun a b => b * (1 - 0.5 * (a * (1 - 0.5 * a * a - 0.5 * b * b)) *
          (a * (1 - 0.5 * a * a - 0.5 * b * b)) - 0.5 * b * b))
        (List.zipWith (· - ·) pa.px (pa.p.map (Dxp * ·)))
        (List.zipWith (· - ·) pa.py (pa.p.map (Dyp * ·)))) := by
  refine ⟨rfl, ?_⟩
  show npmean (List.zipWith (fun b a => b * (1 - 0.5 * a * a - 0.5 * b * b))
      (List.zipWith (· - ·) pa.py (pa.p.map (Dyp * ·)))
      (List.zipWith (fun a b => a * (1 - 0.5 * a * a - 0.5 * b * b))
        (List.zipWith (· - ·) pa.px (pa.p.map (Dxp * ·)))
        (List.zipWith (· - ·) pa.py (pa.p.map (Dyp * ·))))) = _
  rw [zipWith_second_fusion]

/-- C2 counterexample: for a single particle with dispersion-subtracted
momenta `px = py = 1` (all dispersions zero), the code first stores the
corrected `px = 1*(1 - ½ - ½) = 0` and then uses it in the `py` line,
giving `tws.py = 1*(1 - ½·0² - ½·1²) = 1/2`; the claimed symmetric formula
with the uncorrected `px = 1` on the right-hand side would give
`1*(1 - ½·1² - ½·1²) = 0 ≠ 1/2`. -/
theorem get_envelope_counterexample :
    (get_envelope ⟨[⟨0, 1, 0, 1, 0, 0⟩], [1], 0, 0⟩ 0 0 0 0).py = 1 / 2 ∧
    (1 : ℝ) * (1 - 0.5 * 1 * 1 - 0.5 * 1 * 1) = 0 ∧
    (1 / 2 : ℝ) ≠ 0 := by
  refine ⟨?_, by norm_num, by norm_num⟩
  norm_num [get_envelope, npmean, ParticleArray.x, ParticleArray.px,
    ParticleArray.y, ParticleArray.py, ParticleArray.p]

theorem sum_map_centered_sq (x : List ℚ) (c : ℚ) :
    (x.map (fun a => (a - c) * (a - c))).sum =
      (x.map (fun a => a * a)).sum - 2 * c * x.sum + x.length * (c * c) := by
  induction x with
  | nil => simp
  | cons a t ih =>
    simp only [List.map_cons, List.sum_cons, ih, List.length_cons]
    push_cast
    ring

theorem sum_zipWith_centered (x : List ℚ) (c d : ℚ) :
    ∀ (y : List ℚ), y.length = x.length →
      (List.zipWith (fun a b => (a - c) * (b - d)) x y).sum =
        (List.zipWith (· * ·) x y).sum - d * x.sum - c * y.sum +
          x.length * (c * d) := by
  induction x with
  | nil =>
    intro y hy
    rw [List.length_nil, List.length_eq_zero] at hy
    subst hy
    simp
  | cons a t ih =>
    intro y hy
    cases y with
    | nil => simp at hy
    | cons b u =>
      have h : u.length = t.length := by simpa using hy
      simp only [List.zipWith_cons_cons, List.sum_cons, ih u h,
        List.length_cons]
      push_cast
      ring

/-- C4: for equal-length nonempty samples, `moments` returns the means and
the population (1/n) centered second moments, and its emittance is
`np.sqrt(var_x·var_y - cov²)` — float `NaN` (here `none`) whenever the
radicand is negative, with no exception raised (the embedding is total). -/
theorem moments_spec (x y : List ℚ) (hx : x ≠ []) (hlen : y.length = x.length) :
    (moments x y).mx = npmean x ∧
    (moments x y).my = npmean y ∧
    (moments x y).mxx = pop_var x ∧
    (moments x y).myy = pop_var y ∧
    (moments x y).mxy = pop_cov x y ∧
    (moments x y).emitt =
      npsqrt (pop_var x * pop_var y - pop_cov x y * pop_cov x y) ∧
    (pop_var x * pop_var y - pop_cov x y * pop_cov x y < 0 →
      (moments x y).emitt = none) := by
  have hn : ((x.length : ℚ)) ≠ 0 := by
    have : x.length ≠ 0 := fun h0 => hx (List.length_eq_zero.mp h0)
    exact_mod_cast this
  have hmxx : (moments x y).mxx = pop_var x := by
    show ((x.map (· - npmean x)).map (fun a => a * a)).sum / (x.length : ℚ) = _
    rw [List.map_map]
    have hcomp : ((fun a => a * a) ∘ (· - npmean x)) =
        fun a => (a - npmean x) * (a - npmean x) := rfl
    rw [hcomp, sum_map_centered_sq, pop_var, npmean]
    field_simp
    ring
  have hmyy : (moments x y).myy = pop_var y := by
    show ((y.map (· - npmean y)).map (fun a => a * a)).sum / (x.length : ℚ) = _
    rw [List.map_map]
    have hcomp : ((fun a => a * a) ∘ (· - npmean y)) =
        fun a => (a - npmean y) * (a - npmean y) := rfl
    rw [hcomp, sum_map_centered_sq, pop_var, npmean, hlen]
    field_simp
    ring
  have hmxy : (moments x y).mxy = pop_cov x y := by
    show (List.zipWith (· * ·) (x.map (· - npmean x)) (y.map (· - npmean y))).sum /
        (x.length : ℚ) = _
    rw [zipWith_map_sub_mul, sum_zipWith_centered x (npmean x) (npmean y) y hlen,
      pop_cov, npmean, npmean, hlen]
    field_simp
    ring
  have hemitt : (moments x y).emitt =
      npsqrt (pop_var x * pop_var y - pop_cov x y * pop_cov x y) := by
    show npsqrt ((moments x y).mxx * (moments x y).myy -
      (moments x y).mxy * (moments x y).mxy) = _
    rw [hmxx, hmyy, hmxy]
  refine ⟨rfl, rfl, hmxx, hmyy, hmxy, hemitt, ?_⟩
  intro hneg
  rw [hemitt, npsqrt, if_pos hneg]

theorem moments_spec_witness :
    ([0, 2] : List ℚ) ≠ [] ∧
    ([0, 1] : List ℚ).length = ([0, 2] : List ℚ).length ∧
    ((moments [0, 2] [0, 1]).mx = npmean [0, 2] ∧
      (moments [0, 2] [0, 1]).my = npmean [0, 1] ∧
      (moments [0, 2] [0, 1]).mxx = pop_var [0, 2] ∧
      (moments [0, 2] [0, 1]).myy = pop_var [0, 1] ∧
      (moments [0, 2] [0, 1]).mxy = pop_cov [0, 2] [0, 1] ∧
      (moments [0, 2] [0, 1]).emitt =
        npsqrt (pop_var [0, 2] * pop_var [0, 1] -
          pop_cov [0, 2] [0, 1] * pop_cov [0, 2] [0, 1]) ∧
      (pop_var [0, 2] * pop_var [0, 1] -
          pop_cov [0, 2] [0, 1] * pop_cov [0, 2] [0, 1] < 0 →
        (moments [0, 2] [0, 1]).emitt = none)) :=
  ⟨by decide, by decide, moments_spec [0, 2] [0, 1] (by decide) (by decide)⟩

/-! ## Theorems: `beam_matching` -/

/-- C5: `beam_matching` applies the 2×2 map built from the *in-window*
moments (phase advance 0) to the (position, angle) pairs of EVERY particle,
in place — including particles outside the mean-tau ± k·sigma selection
window: the window enters only through `match_matrix_x`/`match_matrix_y`,
and rows 4 (`tau`) and 5 (`p`) are untouched. -/
theorem beam_matching_spec (particles : List (Coords ℝ)) (bounds : ℝ × ℝ)
    (x_opt y_opt : ℝ × ℝ × ℝ) :
    (beam_matching particles bounds x_opt y_opt).length = particles.length ∧
    ∀ k, k < particles.length →
      ((beam_matching particles bounds x_opt y_opt).getD k ⟨0, 0, 0, 0, 0, 0⟩).x =
        (match_matrix_x particles bounds x_opt).m00 *
          (particles.getD k ⟨0, 0, 0, 0, 0, 0⟩).x +
        (match_matrix_x particles bounds x_opt).m01 *
          (particles.getD k ⟨0, 0, 0, 0, 0, 0⟩).px ∧
      ((beam_matching particles bounds x_opt y_opt).getD k ⟨0, 0, 0, 0, 0, 0⟩).px =
        (match_matrix_x particles bounds x_opt).m10 *
          (particles.getD k ⟨0, 0, 0, 0, 0, 0⟩).x +
        (match_matrix_x particles bounds x_opt).m11 *
          (particles.getD k ⟨0, 0, 0, 0, 0, 0⟩).px ∧
      ((beam_matching particles bounds x_opt y_opt).getD k ⟨0, 0, 0, 0, 0, 0⟩).y =
        (match_matrix_y particles bounds y_opt).m00 *
          (particles.getD k ⟨0, 0, 0, 0, 0, 0⟩).y +
        (match_matrix_y particles bounds y_opt).m01 *
          (particles.getD k ⟨0, 0, 0, 0, 0, 0⟩).py ∧
      ((beam_matching particles bounds x_opt y_opt).getD k ⟨0, 0, 0, 0, 0, 0⟩).py =
        (match_matrix_y particles bounds y_opt).m10 *
          (particles.getD k ⟨0, 0, 0, 0, 0, 0⟩).y +
        (match_matrix_y particles bounds y_opt).m11 *
          (particles.getD k ⟨0, 0, 0, 0, 0, 0⟩).py ∧
      ((beam_matching particles bounds x_opt y_opt).getD k ⟨0, 0, 0, 0, 0, 0⟩).tau =
        (particles.getD k ⟨0, 0, 0, 0, 0, 0⟩).tau ∧
      ((beam_matching particles bounds x_opt y_opt).getD k ⟨0, 0, 0, 0, 0, 0⟩).p =
        (particles.getD k ⟨0, 0, 0, 0, 0, 0⟩).p := by
  have hout : beam_matching particles bounds x_opt y_opt =
      particles.map (fun c =>
        { c with
          x := (match_matrix_x particles bounds x_opt).m00 * c.x +
            (match_matrix_x particles bounds x_opt).m01 * c.px,
          px := (match_matrix_x particles bounds x_opt).m10 * c.x +
            (match_matrix_x particles bounds x_opt).m11 * c.px,
          y := (match_matrix_y particles bounds y_opt).m00 * c.y +
            (match_matrix_y particles bounds y_opt).m01 * c.py,
          py := (match_matrix_y particles bounds y_opt).m10 * c.y +
            (match_matrix_y particles bounds y_opt).m11 * c.py }) := rfl
  refine ⟨by rw [hout, List.length_map], ?_⟩
  intro k hk
  rw [hout, getD_map _ _ _ hk _ ⟨0, 0, 0, 0, 0, 0⟩]
  exact ⟨rfl, rfl, rfl, rfl, rfl, rfl⟩

theorem beam_matching_spec_witness :
    (beam_matching [⟨1, 2, 3, 4, 5, 6⟩, ⟨2, 1, 4, 3, 50, 6⟩] (-1, 1)
        (0, 1, 0) (0, 1, 0)).length =
      ([⟨1, 2, 3, 4, 5, 6⟩, ⟨2, 1, 4, 3, 50, 6⟩] : List (Coords ℝ)).length ∧
    (0 < ([⟨1, 2, 3, 4, 5, 6⟩, ⟨2, 1, 4, 3, 50, 6⟩] : List (Coords ℝ)).length ∧
      ((beam_matching [⟨1, 2, 3, 4, 5, 6⟩, ⟨2, 1, 4, 3, 50, 6⟩] (-1, 1)
          (0, 1, 0) (0, 1, 0)).getD 0 ⟨0, 0, 0, 0, 0, 0⟩).x =
        (match_matrix_x [⟨1, 2, 3, 4, 5, 6⟩, ⟨2, 1, 4, 3, 50, 6⟩] (-1, 1)
          (0, 1, 0)).m00 * 1 +
        (match_matrix_x [⟨1, 2, 3, 4, 5, 6⟩, ⟨2, 1, 4, 3, 50, 6⟩] (-1, 1)
          (0, 1, 0)).m01 * 2) :=
  ⟨(beam_matching_spec _ _ _ _).1,
    by norm_num,
    ((beam_matching_spec [⟨1, 2, 3, 4, 5, 6⟩, ⟨2, 1, 4, 3, 50, 6⟩] (-1, 1)
      (0, 1, 0) (0, 1, 0)).2 0 (by norm_num)).1⟩

/-! ## Theorems: `s_to_cur` -/

theorem map_range_sum (f : ℕ → ℝ) (n : ℕ) :
    ((List.range n).map f).sum = ∑ j ∈ Finset.range n, f j := by
  induction n with
  | zero => simp
  | succ k ih =>
    rw [List.range_succ, Finset.sum_range_succ, List.map_append,
      List.sum_append, ih]
    simp

theorem map_mul_left_sum (b : ℝ) (l : List ℝ) :
    (l.map (fun r => b * r)).sum = b * l.sum := by
  induction l with
  | nil => simp
  | cons a t ih =>
    simp only [List.map_cons, List.sum_cons, ih]
    ring

theorem sum_range_update (C : ℤ → ℝ) (n : ℕ) (i : ℤ) (v : ℝ)
    (h0 : 0 ≤ i) (hn : i < (n : ℤ)) :
    ∑ l ∈ Finset.range n, Function.update C i v (l : ℤ) =
      (∑ l ∈ Finset.range n, C (l : ℤ)) + v - C i := by
  have hmem : i.toNat ∈ Finset.range n := by
    rw [Finset.mem_range]; omega
  have hcast : (i.toNat : ℤ) = i := Int.toNat_of_nonneg h0
  rw [← Finset.add_sum_erase _ _ hmem,
    ← Finset.add_sum_erase _ (fun l : ℕ => C (l : ℤ)) hmem]
  have herase : ∀ l ∈ (Finset.range n).erase i.toNat,
      Function.update C i v (l : ℤ) = C (l : ℤ) := by
    intro l hl
    have hlne : l ≠ i.toNat := (Finset.mem_erase.1 hl).1
    have hlz : (l : ℤ) ≠ i := by omega
    exact Function.update_noteq hlz v C
  rw [Finset.sum_congr rfl herase, hcast, Function.update_same]
  ring

theorem deposit_sum (N2 : ℕ) :
    ∀ (ps : List (ℤ × ℝ)) (C : ℤ → ℝ),
    (∀ pr ∈ ps, 0 ≤ pr.1 ∧ pr.1 + 1 < (N2 : ℤ)) →
    ∑ l ∈ Finset.range N2, deposit N2 ps C (l : ℤ) =
      (∑ l ∈ Finset.range N2, C (l : ℤ)) + ps.length := by
  intro ps
  induction ps with
  | nil => intro C h; simp [deposit]
  | cons pr rest ih =>
    intro C h
    have hpr := h pr (List.mem_cons_self _ _)
    have hclamp : (if pr.1 > (N2 : ℤ) - 1 then (N2 : ℤ) - 1 else pr.1) =
        pr.1 := by
      rw [if_neg]; omega
    simp only [deposit]
    rw [hclamp]
    rw [ih _ (fun q hq => h q (List.mem_cons_of_mem _ hq))]
    set C1 := Function.update C pr.1 (C pr.1 + pr.2) with hC1
    have h1 : ∑ l ∈ Finset.range N2, C1 (l : ℤ) =
        (∑ l ∈ Finset.range N2, C (l : ℤ)) + (C pr.1 + pr.2) - C pr.1 :=
      sum_range_update C N2 pr.1 _ hpr.1 (by omega)
    have h2 : ∑ l ∈ Finset.range N2,
        Function.update C1 (pr.1 + 1) (C1 (pr.1 + 1) + (1 - pr.2)) (l : ℤ) =
        (∑ l ∈ Finset.range N2, C1 (l : ℤ)) +
          (C1 (pr.1 + 1) + (1 - pr.2)) - C1 (pr.1 + 1) :=
      sum_range_update C1 N2 (pr.1 + 1) _ (by omega) (by omega)
    rw [h2, h1, List.length_cons]
    push_cast
    ring

theorem deposit_nonneg (N2 : ℕ) :
    ∀ (ps : List (ℤ × ℝ)) (C : ℤ → ℝ),
    (∀ pr ∈ ps, 0 ≤ pr.2 ∧ pr.2 ≤ 1) → (∀ l, 0 ≤ C l) →
    ∀ l, 0 ≤ deposit N2 ps C l := by
  intro ps
  induction ps with
  | nil => intro C h hC l; simpa [deposit] using hC l
  | cons pr rest ih =>
    intro C h hC l
    have hpr := h pr (List.mem_cons_self _ _)
    simp only [deposit]
    apply ih _ (fun q hq => h q (List.mem_cons_of_mem _ hq))
    intro t
    set i := if pr.1 > (N2 : ℤ) - 1 then (N2 : ℤ) - 1 else pr.1 with hidef
    have hC1 : ∀ u, 0 ≤ Function.update C i (C i + pr.2) u := by
      intro u
      rw [Function.update_apply]
      split_ifs
      · have := hC i; linarith [hpr.1]
      · exact hC u
    rw [Function.update_apply]
    split_ifs
    · have := hC1 (i + 1); linarith [hpr.2]
    · exact hC1 t

/-- C6: for every nonempty sample and every `sigma > 0`, the current
profile returned by `s_to_cur` integrates exactly (in exact arithmetic) to
`q0*v`: the rescaling constant `koef = q0*v/(s*sum)` is built for this, and
the divisor is provably nonzero because the deposited histogram carries
total mass `len(A) > 0` inside the valid index range and the normalized
Gaussian kernel weights are positive. -/
theorem s_to_cur_integral (A : List ℝ) (sigma q0 v : ℝ)
    (hA : A ≠ []) (hs : 0 < sigma) :
    (s_to_cur A sigma q0 v).cur.sum * bin_w A sigma = q0 * v := by
  have hminmax : npmin A ≤ npmax A := by
    cases A with
    | nil => exact absurd rfl hA
    | cons a t =>
      exact le_trans (npmin_le _ a (List.mem_cons_self _ _))
        (le_npmax _ a (List.mem_cons_self _ _))
  have hba : 0 < grid_b A sigma - grid_a A sigma := by
    rw [grid_b, grid_a]; linarith
  have hNpos : 0 < grid_N A sigma := by
    rw [grid_N]
    exact Nat.ceil_pos.mpr (div_pos hba (by linarith))
  have hw : 0 < bin_w A sigma := by
    rw [bin_w]
    exact div_pos hba (by exact_mod_cast hNpos)
  have hbaw : (grid_b A sigma - grid_a A sigma) / bin_w A sigma =
      (grid_N A sigma : ℝ) := by
    rw [bin_w, div_div_eq_mul_div, mul_comm, mul_div_assoc,
      div_self (ne_of_gt hba), mul_one]
  -- bounds on the deposit pairs
  have hps : ∀ pr ∈ s_to_cur_ps A sigma,
      (0 ≤ pr.1 ∧ pr.1 + 1 < ((grid_N A sigma + 1 : ℕ) : ℤ)) ∧
      (0 ≤ pr.2 ∧ pr.2 ≤ 1) := by
    intro pr hpr
    rw [s_to_cur_ps, List.mem_map] at hpr
    obtain ⟨c, hc, rfl⟩ := hpr
    rw [s_to_cur_cA, List.mem_map] at hc
    obtain ⟨t, ht, rfl⟩ := hc
    have h1 : npmin A ≤ t := npmin_le A t ht
    have h2 : t ≤ npmax A := le_npmax A t ht
    set c := (t - grid_a A sigma) / bin_w A sigma with hcdef
    have hcpos : 0 < c := by
      apply div_pos _ hw
      rw [grid_a]; linarith
    have hcl : c < (grid_N A sigma : ℝ) := by
      rw [← hbaw, hcdef, div_lt_div_iff_of_pos_right hw, grid_b]
      linarith
    refine ⟨⟨Int.floor_nonneg.mpr hcpos.le, ?_⟩, ?_, ?_⟩
    · have hfl : ⌊c⌋ < (grid_N A sigma : ℤ) :=
        Int.floor_lt.mpr (by exact_mod_cast hcl)
      push_cast
      omega
    · have := Int.lt_floor_add_one c
      simp only []
      linarith
    · have := Int.floor_le c
      simp only []
      linarith
  -- total deposited mass
  have hsum_C : ∑ l ∈ Finset.range (grid_N A sigma + 1),
      s_to_cur_C A sigma (l : ℤ) = (A.length : ℝ) := by
    rw [s_to_cur_C, deposit_sum _ _ _ (fun pr hpr => (hps pr hpr).1)]
    simp [s_to_cur_ps, s_to_cur_cA]
  have hC_nonneg : ∀ l, 0 ≤ s_to_cur_C A sigma l :=
    deposit_nonneg _ _ _ (fun pr hpr => (hps pr hpr).2) (fun _ => le_refl 0)
  -- the kernel weights
  have hGsum : 0 < ((List.range (2 * s_to_cur_K A sigma + 1)).map (fun t : ℕ =>
      Real.exp (-0.5 * (((t : ℝ) - (s_to_cur_K A sigma : ℝ)) *
        bin_w A sigma / sigma) ^ 2))).sum := by
    apply List.sum_pos
    · intro x hx
      rw [List.mem_map] at hx
      obtain ⟨t, ht, rfl⟩ := hx
      exact Real.exp_pos _
    · apply List.ne_nil_of_length_pos
      simp
  have hGf_nonneg : ∀ t, 0 ≤ s_to_cur_Gf A sigma t := by
    intro t
    rw [s_to_cur_Gf]
    split_ifs with hcond
    · simp only [s_to_cur_G, List.map_map]
      by_cases hlt : t.toNat < 2 * s_to_cur_K A sigma + 1
      · rw [map_range_getD _ _ _ hlt]
        exact div_nonneg (Real.exp_pos _).le (le_of_lt hGsum)
      · rw [List.getD_eq_default]
        simp only [List.length_map, List.length_range]
        omega
    · exact le_refl 0
  have hGfK : s_to_cur_Gf A sigma ((s_to_cur_K A sigma : ℕ) : ℤ) =
      1 / ((List.range (2 * s_to_cur_K A sigma + 1)).map (fun t : ℕ =>
        Real.exp (-0.5 * (((t : ℝ) - (s_to_cur_K A sigma : ℝ)) *
          bin_w A sigma / sigma) ^ 2))).sum := by
    rw [s_to_cur_Gf, if_pos (by constructor <;> omega)]
    simp only [s_to_cur_G, List.map_map, Int.toNat_natCast]
    rw [map_range_getD _ _ _ (by omega)]
    simp [sub_self, Real.exp_zero]
  -- lower bound on the convolved sum
  have hB1 : (s_to_cur_B1 A sigma).sum =
      ∑ j ∈ Finset.range (grid_N A sigma + 1),
        ∑ l ∈ Finset.range (grid_N A sigma + 1),
          s_to_cur_C A sigma (l : ℤ) *
            s_to_cur_Gf A sigma ((j : ℤ) + (s_to_cur_K A sigma : ℤ) - (l : ℤ)) := by
    rw [s_to_cur_B1]
    exact map_range_sum _ _
  have hdiag : ∀ j ∈ Finset.range (grid_N A sigma + 1),
      s_to_cur_C A sigma (j : ℤ) *
        s_to_cur_Gf A sigma ((s_to_cur_K A sigma : ℕ) : ℤ) ≤
      ∑ l ∈ Finset.range (grid_N A sigma + 1),
        s_to_cur_C A sigma (l : ℤ) *
          s_to_cur_Gf A sigma ((j : ℤ) + (s_to_cur_K A sigma : ℤ) - (l : ℤ)) := by
    intro j hj
    have hterm := Finset.single_le_sum
      (f := fun l : ℕ => s_to_cur_C A sigma (l : ℤ) *
        s_to_cur_Gf A sigma ((j : ℤ) + (s_to_cur_K A sigma : ℤ) - (l : ℤ)))
      (fun l _ => mul_nonneg (hC_nonneg _) (hGf_nonneg _)) hj
    simpa using hterm
  have hlenpos : 0 < (A.length : ℝ) := by
    have : A.length ≠ 0 := fun h0 => hA (List.length_eq_zero.mp h0)
    exact_mod_cast Nat.pos_of_ne_zero this
  have hB1pos : 0 < (s_to_cur_B1 A sigma).sum := by
    have hGfKpos : 0 < s_to_cur_Gf A sigma ((s_to_cur_K A sigma : ℕ) : ℤ) := by
      rw [hGfK]
      exact div_pos one_pos hGsum
    calc (0 : ℝ) < (A.length : ℝ) *
          s_to_cur_Gf A sigma ((s_to_cur_K A sigma : ℕ) : ℤ) :=
        mul_pos hlenpos hGfKpos
      _ = ∑ j ∈ Finset.range (grid_N A sigma + 1),
            s_to_cur_C A sigma (j : ℤ) *
              s_to_cur_Gf A sigma ((s_to_cur_K A sigma : ℕ) : ℤ) := by
          rw [← Finset.sum_mul, hsum_C]
      _ ≤ (s_to_cur_B1 A sigma).sum := by
          rw [hB1]
          exact Finset.sum_le_sum hdiag
  -- the rescaled profile integrates to q0*v
  show ((s_to_cur_B1 A sigma).map (fun r =>
      q0 * v / (bin_w A sigma * (s_to_cur_B1 A sigma).sum) * r)).sum *
        bin_w A sigma = q0 * v
  rw [map_mul_left_sum]
  field_simp
  ring

theorem s_to_cur_integral_witness :
    ([(0 : ℝ)] ≠ []) ∧ ((0 : ℝ) < 1) ∧
    (s_to_cur [(0 : ℝ)] 1 2 3).cur.sum * bin_w [(0 : ℝ)] 1 = 2 * 3 :=
  ⟨List.cons_ne_nil _ _, one_pos,
    s_to_cur_integral [(0 : ℝ)] 1 2 3 (List.cons_ne_nil _ _) one_pos⟩

/-! ## Theorems: `Optimizer.max_sase` -/

theorem foldl_set_length (l : List ℕ) (vals store : List ℚ) :
    (l.foldl (fun st i => st.set i (vals.getD i 0)) store).length =
      store.length := by
  induction l generalizing store with
  | nil => rfl
  | cons a t ih => rw [List.foldl_cons, ih, List.length_set]

theorem foldl_set_range_getElem? (vals store : List ℚ) (n j : ℕ) :
    ((List.range n).foldl (fun st i => st.set i (vals.getD i 0)) store)[j]? =
      if j < n ∧ j < store.length then some (vals.getD j 0) else store[j]? := by
  induction n with
  | zero => simp
  | succ n ih =>
    rw [List.range_succ, List.foldl_append, List.foldl_cons, List.foldl_nil]
    by_cases hj : j = n
    · subst hj
      by_cases hlt : j < store.length
      · rw [List.getElem?_set_eq_of_lt _
          (by rw [foldl_set_length]; exact hlt)]
        simp [hlt]
      · have hlen : ((List.range j).foldl
            (fun st i => st.set i (vals.getD i 0)) store).length ≤ j := by
          rw [foldl_set_length]; omega
        rw [List.set_eq_of_length_le hlen, ih]
        have : ¬(j < j ∧ j < store.length) := by omega
        have h2 : ¬(j < j + 1 ∧ j < store.length) := by omega
        simp only [this, h2, if_false]
    · rw [List.getElem?_set_ne (fun h => hj h.symm), ih]
      by_cases h1 : j < n ∧ j < store.length
      · have h2 : j < n + 1 ∧ j < store.length := ⟨by omega, h1.2⟩
        simp only [h1, h2, if_true]
      · have h2 : ¬(j < n + 1 ∧ j < store.length) := by omega
        simp only [h1, h2, if_false]

theorem write_loop_eq (store vals : List ℚ) (h : store.length = vals.length) :
    write_loop store vals = vals := by
  apply List.ext_getElem?
  intro j
  rw [write_loop, foldl_set_range_getElem?]
  by_cases hj : j < vals.length
  · rw [if_pos ⟨hj, by omega⟩, List.getD_eq_getElem?_getD,
      List.getElem?_eq_getElem hj]
    rfl
  · rw [if_neg (by omega), List.getElem?_eq_none (by omega),
      List.getElem?_eq_none (by omega)]

/-- C8: at the end of one `max_sase` invocation, every actuator is written
back to its recorded baseline value `x_init` iff the final objective
reading is not strictly greater than the baseline (`sase_new <= sase_ref`);
strict improvement leaves the minimizer's final settings in place. -/
theorem max_sase_final_spec (sase_ref sase_new : ℚ) (x_init store : List ℚ)
    (hlen : store.length = x_init.length) :
    (sase_new ≤ sase_ref →
      max_sase_final sase_ref sase_new x_init store = x_init) ∧
    (sase_ref < sase_new →
      max_sase_final sase_ref sase_new x_init store = store) := by
  constructor
  · intro hle
    rw [max_sase_final, if_pos hle]
    exact write_loop_eq store x_init hlen
  · intro hgt
    rw [max_sase_final, if_neg (not_le.mpr hgt)]

theorem max_sase_final_spec_witness :
    (([7] : List ℚ).length = ([5] : List ℚ).length) ∧
    ((1 : ℚ) ≤ 1 → max_sase_final 1 1 [5] [7] = [5]) ∧
    ((1 : ℚ) < 1 → max_sase_final 1 1 [5] [7] = [7]) :=
  ⟨rfl, (max_sase_final_spec 1 1 [5] [7] rfl).1,
    (max_sase_final_spec 1 1 [5] [7] rfl).2⟩

theorem limits_exceeded_iff (x : List ℚ) :
    ∀ lims : List (ℚ × ℚ), lims.length = x.length →
    (limits_exceeded x lims = true ↔
      ∃ i, i < x.length ∧ (x.getD i 0 < (lims.getD i (0, 0)).1 ∨
        (lims.getD i (0, 0)).2 < x.getD i 0)) := by
  induction x with
  | nil =>
    intro lims hl
    simp [limits_exceeded]
  | cons a t ih =>
    intro lims hl
    cases lims with
    | nil => simp at hl
    | cons lh lt =>
      obtain ⟨lo, hi⟩ := lh
      have h' : lt.length = t.length := by simpa using hl
      show (if a < lo ∨ a > hi then true else limits_exceeded t lt) = true ↔ _
      by_cases hout : a < lo ∨ a > hi
      · rw [if_pos hout]
        exact iff_of_true rfl ⟨0, Nat.succ_pos _, by simpa using hout⟩
      · rw [if_neg hout, ih lt h']
        constructor
        · rintro ⟨i, hi', hcond⟩
          exact ⟨i + 1, by simpa using Nat.succ_lt_succ hi',
            by simpa using hcond⟩
        · rintro ⟨i, hi', hcond⟩
          cases i with
          | zero =>
            exact absurd (by simpa using hcond) hout
          | succ i =>
            refine ⟨i, ?_, by simpa using hcond⟩
            simp only [List.length_cons] at hi'
            omega

/-- C9: `error_func` returns the fixed penalty 100.0 and writes nothing
when some component of the proposed vector is outside its corrector's
limits; otherwise it writes every actuator (the machine state becomes the
proposed vector) and returns 100.0 when the maximum alarm exceeds 1.0,
`alarm*50.0` when it exceeds 0.7, and `alarm - sase` otherwise. -/
theorem error_func_spec (x : List ℚ) (lims : List (ℚ × ℚ)) (store : List ℚ)
    (alarms : List ℚ) (sase : ℚ)
    (hlen : lims.length = x.length) (hslen : store.length = x.length) :
    ((∃ i, i < x.length ∧ (x.getD i 0 < (lims.getD i (0, 0)).1 ∨
        (lims.getD i (0, 0)).2 < x.getD i 0)) →
      error_func x lims store alarms sase = ⟨store, 100⟩) ∧
    ((∀ i, i < x.length → (lims.getD i (0, 0)).1 ≤ x.getD i 0 ∧
        x.getD i 0 ≤ (lims.getD i (0, 0)).2) →
      (error_func x lims store alarms sase).store = x ∧
      (error_func x lims store alarms sase).pen =
        (if 1 < npmax alarms then 100
         else if 0.7 < npmax alarms then npmax alarms * 50
         else npmax alarms - sase)) := by
  constructor
  · intro hex
    rw [error_func, if_pos ((limits_exceeded_iff x lims hlen).2 hex)]
  · intro hin
    have hfalse : ¬(limits_exceeded x lims = true) := by
      intro htrue
      obtain ⟨i, hi, hcond⟩ := (limits_exceeded_iff x lims hlen).1 htrue
      rcases hcond with hlt | hgt
      · exact absurd (hin i hi).1 (not_le.mpr hlt)
      · exact absurd (hin i hi).2 (not_le.mpr hgt)
    rw [error_func, if_neg hfalse]
    constructor
    · show (if npmax alarms > 1 then
          (⟨write_loop store x, 100⟩ : ErrResult)
        else if npmax alarms > 0.7 then
          ⟨write_loop store x, npmax alarms * 50⟩
        else ⟨write_loop store x, npmax alarms - sase⟩).store = x
      split_ifs <;> exact write_loop_eq store x hslen
    · show (if npmax alarms > 1 then
          (⟨write_loop store x, 100⟩ : ErrResult)
        else if npmax alarms > 0.7 then
          ⟨write_loop store x, npmax alarms * 50⟩
        else ⟨write_loop store x, npmax alarms - sase⟩).pen = _
      split_ifs <;> rfl

theorem error_func_spec_witness :
    ([((-1 : ℚ), (1 : ℚ))].length = ([(0 : ℚ)]).length) ∧
    (([5] : List ℚ).length = ([(0 : ℚ)]).length) ∧
    ((∀ i, i < ([(0 : ℚ)]).length →
        (([((-1 : ℚ), (1 : ℚ))]).getD i (0, 0)).1 ≤ ([(0 : ℚ)]).getD i 0 ∧
        ([(0 : ℚ)]).getD i 0 ≤ (([((-1 : ℚ), (1 : ℚ))]).getD i (0, 0)).2) →
      (error_func [0] [(-1, 1)] [5] [0] 2).store = [(0 : ℚ)] ∧
      (error_func [0] [(-1, 1)] [5] [0] 2).pen =
        (if 1 < npmax ([0] : List ℚ) then 100
         else if 0.7 < npmax ([0] : List ℚ) then npmax ([0] : List ℚ) * 50
         else npmax ([0] : List ℚ) - 2)) :=
  ⟨rfl, rfl, (error_func_spec [0] [(-1, 1)] [5] [0] 2 rfl rfl).2⟩

/-! ## Theorems: `slice_analysis` -/

theorem replicate_getD {α : Type} (N i : ℕ) (T d : α) (h : i < N) :
    (List.replicate N T).getD i d = T := by
  rw [List.getD_eq_getElem?_getD, List.getElem?_replicate]
  simp [h]

/-- When the clamped window covers the whole index range, every entry of
`windowed_avg` equals the average of the input with its first entry
excluded: the cumulative-sum difference `c_cum[N-1] - c_cum[0]` sums the
entries at indices `1 .. N-1` and `dq = N-1`. -/
theorem windowed_avg_full (c : List ℚ) (N m : ℕ) (hc : c.length = N)
    (hN : 2 ≤ N) (hm : N - 1 ≤ m) :
    windowed_avg c N m = List.replicate N (c.tail.sum / ((N - 1 : ℕ) : ℚ)) := by
  apply List.eq_replicate_iff.2
  refine ⟨by simp [windowed_avg], ?_⟩
  intro b hb
  simp only [windowed_avg, List.mem_map, List.mem_range] at hb
  obtain ⟨i, hi, rfl⟩ := hb
  have hn1 : i - m = 0 := by omega
  have hn2 : min (N - 1) (i + m) = N - 1 := by omega
  have hcne : c ≠ [] := by
    intro h; rw [h] at hc; simp at hc; omega
  simp only [hn1, hn2, Nat.sub_zero, zero_add]
  rw [cumsum_getD c (N - 1) (by omega), cumsum_getD c 0 (by omega)]
  have htop : N - 1 + 1 = N := by omega
  rw [htop, ← hc, List.take_length, zero_add, sum_sub_take_one c hcne]

/-- C1 (amended): for a z-sorted sample of `N ≥ 2` points with
`round(M/2) ≥ N-1`, `slice_analysis` returns at every index the centered
moments of the sample *with its first point excluded* (indices `1..N-1`):
because the windowed sums are cumulative-sum differences `c[n2] - c[n1]`
with `n1 = 0`, index 0 never enters any window, so the claimed global
moments are replaced by the moments over indices `1..N-1`. -/
theorem slice_analysis_full_window (x xs : List ℚ) (M : ℕ)
    (hlen : xs.length = x.length) (hN : 2 ≤ x.length)
    (hM : x.length - 1 ≤ round_half_M M) :
    ∀ i < x.length,
      (slice_analysis x xs M).mx.getD i 0 = tail_mean x ∧
      (slice_analysis x xs M).mxs.getD i 0 = tail_mean xs ∧
      (slice_analysis x xs M).mxx.getD i 0 = tail_var x ∧
      (slice_analysis x xs M).mxsxs.getD i 0 = tail_var xs ∧
      (slice_analysis x xs M).mxxs.getD i 0 = tail_cov x xs ∧
      (slice_analysis x xs M).emittx.getD i 0 =
        Real.sqrt ((tail_var x * tail_var xs - tail_cov x xs * tail_cov x xs : ℚ)) := by
  intro i hi
  have hm : x.length - 1 ≤ max (round_half_M M) 1 :=
    le_trans hM (le_max_left _ _)
  have hxslen : xs.length = x.length := hlen
  have hmx : windowed_avg x x.length (max (round_half_M M) 1) =
      List.replicate x.length (tail_mean x) := by
    rw [windowed_avg_full x x.length _ rfl hN hm, tail_mean]
  have hmxs : windowed_avg xs x.length (max (round_half_M M) 1) =
      List.replicate x.length (tail_mean xs) := by
    rw [windowed_avg_full xs x.length _ hxslen hN hm, tail_mean, hxslen]
  have hx1 : List.zipWith (· - ·) x
      (windowed_avg x x.length (max (round_half_M M) 1)) =
      x.map (· - tail_mean x) := by
    rw [hmx]; exact zipWith_replicate_sub x _ x.length rfl
  have hxs1 : List.zipWith (· - ·) xs
      (windowed_avg xs x.length (max (round_half_M M) 1)) =
      xs.map (· - tail_mean xs) := by
    rw [hmxs]; exact zipWith_replicate_sub xs _ x.length hxslen
  have hvx : windowed_avg
      (List.zipWith (· * ·) (x.map (· - tail_mean x)) (x.map (· - tail_mean x)))
      x.length (max (round_half_M M) 1) =
      List.replicate x.length (tail_var x) := by
    rw [zipWith_map_sub_mul, List.zipWith_same,
      windowed_avg_full _ x.length _ (by simp) hN hm]
    congr 1
    rw [tail_var, ← List.map_tail]
  have hvxs : windowed_avg
      (List.zipWith (· * ·) (xs.map (· - tail_mean xs)) (xs.map (· - tail_mean xs)))
      x.length (max (round_half_M M) 1) =
      List.replicate x.length (tail_var xs) := by
    rw [zipWith_map_sub_mul, List.zipWith_same,
      windowed_avg_full _ x.length _ (by simp [hxslen]) hN hm]
    congr 1
    rw [tail_var, ← List.map_tail, hxslen]
  have hcov : windowed_avg
      (List.zipWith (· * ·) (x.map (· - tail_mean x)) (xs.map (· - tail_mean xs)))
      x.length (max (round_half_M M) 1) =
      List.replicate x.length (tail_cov x xs) := by
    rw [zipWith_map_sub_mul,
      windowed_avg_full _ x.length _ (by simp [hxslen]) hN hm]
    congr 1
    rw [tail_cov, ← zipWith_tail]
  simp only [slice_analysis]
  rw [hx1, hxs1, hvx, hvxs, hcov]
  refine ⟨?_, ?_, ?_, ?_, ?_, ?_⟩
  · rw [hmx]; exact replicate_getD _ _ _ _ hi
  · rw [hmxs]; exact replicate_getD _ _ _ _ hi
  · exact replicate_getD _ _ _ _ hi
  · exact replicate_getD _ _ _ _ hi
  · exact replicate_getD _ _ _ _ hi
  · rw [map_range_getD _ _ _ hi]
    rw [replicate_getD _ _ _ _ hi, replicate_getD _ _ _ _ hi,
      replicate_getD _ _ _ _ hi]

theorem slice_analysis_full_window_witness :
    ([1, 0, 1] : List ℚ).length = ([0, 1, 2] : List ℚ).length ∧
    2 ≤ ([0, 1, 2] : List ℚ).length ∧
    ([0, 1, 2] : List ℚ).length - 1 ≤ round_half_M 4 ∧
    ∀ i < ([0, 1, 2] : List ℚ).length,
      (slice_analysis [0, 1, 2] [1, 0, 1] 4).mx.getD i 0 = tail_mean [0, 1, 2] ∧
      (slice_analysis [0, 1, 2] [1, 0, 1] 4).mxs.getD i 0 = tail_mean [1, 0, 1] ∧
      (slice_analysis [0, 1, 2] [1, 0, 1] 4).mxx.getD i 0 = tail_var [0, 1, 2] ∧
      (slice_analysis [0, 1, 2] [1, 0, 1] 4).mxsxs.getD i 0 = tail_var [1, 0, 1] ∧
      (slice_analysis [0, 1, 2] [1, 0, 1] 4).mxxs.getD i 0 =
        tail_cov [0, 1, 2] [1, 0, 1] ∧
      (slice_analysis [0, 1, 2] [1, 0, 1] 4).emittx.getD i 0 =
        Real.sqrt ((tail_var [0, 1, 2] * tail_var [1, 0, 1] -
          tail_cov [0, 1, 2] [1, 0, 1] * tail_cov [0, 1, 2] [1, 0, 1] : ℚ)) :=
  ⟨by decide, by decide, by decide,
    slice_analysis_full_window [0, 1, 2] [1, 0, 1] 4 (by decide) (by decide)
      (by decide)⟩

/-- C1 counterexample: for the z-sorted two-point sample `x = [0, 2]`,
`xs = [0, 0]` with `M = 2` (so `round(M/2) = 1 ≥ N-1`), `slice_analysis`
returns windowed means `mx = [2, 2]`, not the global mean `(0+2)/2 = 1` at
every index: the cumulative-sum windows never include index 0. -/
theorem slice_analysis_counterexample :
    ([0, 2] : List ℚ).length - 1 ≤ round_half_M 2 ∧
    (slice_analysis [0, 2] [0, 0] 2).mx = [2, 2] ∧
    (((0 : ℚ) + 2) / 2 = 1) ∧ ((2 : ℚ) ≠ 1) := by
  refine ⟨by decide, ?_, by norm_num, by norm_num⟩
  show windowed_avg [0, 2] 2 (max (round_half_M 2) 1) = [2, 2]
  norm_num [windowed_avg, cumsum, round_half_M, List.range_succ]

/-! ## Theorems: `simple_filter` -/

theorem filter_pass_length (x : List ℚ) (p : ℕ) :
    (filter_pass x p).length = x.length := by
  simp [filter_pass]

theorem filter_pass_bounded (lo hi : ℚ) (p : ℕ) (x : List ℚ)
    (hx : ∀ a ∈ x, lo ≤ a ∧ a ≤ hi) :
    ∀ b ∈ filter_pass x p, lo ≤ b ∧ b ≤ hi := by
  intro b hb
  simp only [filter_pass, List.mem_map, List.mem_range] at hb
  obtain ⟨i, hilt, rfl⟩ := hb
  set i0 := i - p with hdef0
  set i1 := min (i + p) (x.length - 1) with hdef1
  set seg := (x.drop i0).take (i1 - i0 + 1) with hseg
  have hi0le : i0 ≤ i := Nat.sub_le i p
  have hii1 : i ≤ i1 := le_min (Nat.le_add_right i p) (by omega)
  have hi1lt : i1 < x.length := by
    have := min_le_right (i + p) (x.length - 1); omega
  -- the window really has `i1 - i0 + 1` elements
  have hseglen : seg.length = i1 - i0 + 1 := by
    rw [hseg, List.length_take, List.length_drop]
    have : i1 - i0 + 1 ≤ x.length - i0 := by omega
    omega
  have hsegsub : ∀ a ∈ seg, a ∈ x := by
    intro a ha
    exact List.drop_subset i0 x (List.take_subset _ _ ha)
  have hpos : (0 : ℚ) < ((i1 - i0 + 1 : ℕ) : ℚ) := by
    exact_mod_cast Nat.succ_pos (i1 - i0)
  constructor
  · rw [le_div_iff₀ hpos]
    have h1 : seg.length • lo ≤ seg.sum :=
      List.card_nsmul_le_sum seg lo (fun a ha => (hx a (hsegsub a ha)).1)
    calc lo * ((i1 - i0 + 1 : ℕ) : ℚ) = seg.length • lo := by
          rw [hseglen]; push_cast [nsmul_eq_mul]; ring
      _ ≤ seg.sum := h1
  · rw [div_le_iff₀ hpos]
    have h1 : seg.sum ≤ seg.length • hi :=
      List.sum_le_card_nsmul seg hi (fun a ha => (hx a (hsegsub a ha)).2)
    calc seg.sum ≤ seg.length • hi := h1
      _ = hi * ((i1 - i0 + 1 : ℕ) : ℚ) := by
          rw [hseglen]; push_cast [nsmul_eq_mul]; ring

theorem filter_iter_length (x : List ℚ) (p K : ℕ) :
    ((fun l => filter_pass l p)^[K] x).length = x.length := by
  induction K generalizing x with
  | zero => simp
  | succ k ih =>
    rw [Function.iterate_succ_apply]
    rw [ih (filter_pass x p), filter_pass_length]

theorem filter_iter_bounded (lo hi : ℚ) (p K : ℕ) (x : List ℚ)
    (hx : ∀ a ∈ x, lo ≤ a ∧ a ≤ hi) :
    ∀ b ∈ (fun l => filter_pass l p)^[K] x, lo ≤ b ∧ b ≤ hi := by
  induction K generalizing x with
  | zero => simpa using hx
  | succ k ih =>
    rw [Function.iterate_succ_apply]
    exact ih (filter_pass x p) (filter_pass_bounded lo hi p x hx)

/-- C7 (amended): `simple_filter` with 0 iterations returns the input
unchanged via the explicit early return; with `K > 0` iterations it returns
the `K`-fold iterate of the clamped-window boxcar pass, in which each pass
replaces element `i` by the unweighted average of the *previous pass* over
the index window `[i-p, i+p]` clamped to the array bounds; hence the output
has the input's length and every output element lies in
`[min(input), max(input)]`. -/
theorem simple_filter_spec (x : List ℚ) (p K : ℕ) :
    simple_filter x p 0 = x ∧
    (0 < K → simple_filter x p K = (fun l => filter_pass l p)^[K] x ∧
      (simple_filter x p K).length = x.length ∧
      ∀ a ∈ simple_filter x p K, npmin x ≤ a ∧ a ≤ npmax x) := by
  constructor
  · simp [simple_filter]
  · intro hK
    have hne : K ≠ 0 := Nat.pos_iff_ne_zero.mp hK
    have heq : simple_filter x p K = (fun l => filter_pass l p)^[K] x := by
      simp [simple_filter, hne]
    refine ⟨heq, ?_, ?_⟩
    · rw [heq]; exact filter_iter_length x p K
    · rw [heq]
      exact filter_iter_bounded (npmin x) (npmax x) p K x
        (fun a ha => ⟨npmin_le x a ha, le_npmax x a ha⟩)

theorem simple_filter_spec_witness :
    0 < 2 ∧
    (simple_filter [0, 3, 0] 1 2 = (fun l => filter_pass l 1)^[2] [0, 3, 0] ∧
      (simple_filter [0, 3, 0] 1 2).length = ([0, 3, 0] : List ℚ).length ∧
      ∀ a ∈ simple_filter [0, 3, 0] 1 2,
        npmin [0, 3, 0] ≤ a ∧ a ≤ npmax [0, 3, 0]) :=
  ⟨by decide, (simple_filter_spec [0, 3, 0] 1 2).2 (by decide)⟩

/-- C7 counterexample: on input `[0, 3, 0]` with half-width `p = 1` and
`K = 2` iterations, the output is `[5/4, 4/3, 5/4]`, whereas the unweighted
averages of the *input* samples over the clamped windows `[i-1, i+1]` are
`[3/2, 1, 3/2]`: for `K ≥ 2` the output elements are not unweighted averages
of input samples over the claimed windows. -/
theorem simple_filter_counterexample :
    simple_filter [0, 3, 0] 1 2 = [5/4, 4/3, 5/4] ∧
    filter_pass [0, 3, 0] 1 = [3/2, 1, 3/2] ∧
    simple_filter [0, 3, 0] 1 2 ≠ filter_pass [0, 3, 0] 1 := by
  have h1 : simple_filter [0, 3, 0] 1 2 = [5/4, 4/3, 5/4] := by
    norm_num [simple_filter, filter_pass, List.range_succ,
      Function.iterate_succ_apply]
  have h2 : filter_pass [0, 3, 0] 1 = [3/2, 1, 3/2] := by
    norm_num [filter_pass, List.range_succ]
  refine ⟨h1, h2, ?_⟩
  rw [h1, h2]
  intro h
  have := List.head_eq_of_cons_eq h
  norm_num at this

end Beam
